import Mathlib

/-!
Verification development for the DOGESavings repository.

The repository's core algorithms are translated into executable Lean
definitions and their specified properties are proved below:

* `normalize_vendor_name` — vendor-name normalization
  (`src/pages/01_DOGE_Contract_Savings.py`, lines 21-31; the space-named file
  contains a character-identical copy).
* `build_vendor_clusters` — greedy fuzzy clustering of vendor names
  (`src/pages/01_DOGE Contract Savings.py`, lines 36-57).
* the PDF report table-row / page-cursor loops
  (`src/pages/01_DOGE Contract Savings.py`, lines 344-350;
   `src/pages/01_DOGE_Contract_Savings.py`, lines 353-356).
* ingestion coercion of savings amounts and dates
  (`src/pages/01_DOGE_Contract_Savings.py`, lines 64-65;
   `src/pages/02_DOGE Grants Savings.py`, lines 52-54).
* the chart-page assembly loop
  (`src/pages/01_DOGE_Contract_Savings.py`, lines 406-408;
   `src/pages/02_DOGE Grants Savings.py`, lines 359-361).

Python strings are modelled over the ASCII fragment: `str.lower`,
`str.title`, the regex classes `\w` and `\s`, and word boundaries `\b` are
given their ASCII meaning.  All inputs exercised by the claims are ASCII.
-/

/-- Python regex class `\w` (ASCII fragment): letters, digits and underscore. -/
def isWordChar (c : Char) : Bool := c.isAlphanum || c = '_'

/-- Python regex class `\s` (ASCII fragment): the six whitespace characters. -/
def isSpaceChar (c : Char) : Bool :=
  c = ' ' || c = '\t' || c = '\n' || c = '\r' || c = '\x0b' || c = '\x0c'

/-- Python `str.lower` on one ASCII character, written as an explicit table so
that every use reduces in the kernel. -/
def asciiLower (c : Char) : Char :=
  match c with
  | 'A' => 'a' | 'B' => 'b' | 'C' => 'c' | 'D' => 'd' | 'E' => 'e' | 'F' => 'f'
  | 'G' => 'g' | 'H' => 'h' | 'I' => 'i' | 'J' => 'j' | 'K' => 'k' | 'L' => 'l'
  | 'M' => 'm' | 'N' => 'n' | 'O' => 'o' | 'P' => 'p' | 'Q' => 'q' | 'R' => 'r'
  | 'S' => 's' | 'T' => 't' | 'U' => 'u' | 'V' => 'v' | 'W' => 'w' | 'X' => 'x'
  | 'Y' => 'y' | 'Z' => 'z'
  | c => c

/-- Python `str.upper` on one ASCII character. -/
def asciiUpper (c : Char) : Char :=
  match c with
  | 'a' => 'A' | 'b' => 'B' | 'c' => 'C' | 'd' => 'D' | 'e' => 'E' | 'f' => 'F'
  | 'g' => 'G' | 'h' => 'H' | 'i' => 'I' | 'j' => 'J' | 'k' => 'K' | 'l' => 'L'
  | 'm' => 'M' | 'n' => 'N' | 'o' => 'O' | 'p' => 'P' | 'q' => 'Q' | 'r' => 'R'
  | 's' => 'S' | 't' => 'T' | 'u' => 'U' | 'v' => 'V' | 'w' => 'W' | 'x' => 'X'
  | 'y' => 'Y' | 'z' => 'Z'
  | c => c

/-- Helper for `removeParens`: given the characters after a `(`, return the
characters after the nearest following `)`, or `none` when no `)` is reachable
(`.` in the regex does not cross a newline). -/
def splitAtClose : List Char → Option (List Char)
  | [] => none
  | c :: rest =>
    if c = ')' then some rest
    else if c = '\n' then none
    else splitAtClose rest

/-- Fuelled worker for `removeParens`.  The fuel is the length of the input,
which is always sufficient because each step consumes at least one character. -/
def removeParensAux : Nat → List Char → List Char
  | 0, l => l
  | _ + 1, [] => []
  | fuel + 1, c :: rest =>
    if c = '(' then
      match splitAtClose rest with
      | some rest' => removeParensAux fuel rest'
      | none => c :: removeParensAux fuel rest
    else
      c :: removeParensAux fuel rest

/-- Python `re.sub(r'\(.*?\)', '', name)`: delete each parenthesized substring,
matching non-greedily (each `(` pairs with the nearest following `)`), leaving
an unmatched `(` in place. -/
def removeParens (l : List Char) : List Char := removeParensAux l.length l

/-- One maximal word-character run is flushed: it is deleted exactly when it
equals one of the stop words, otherwise it is kept verbatim. -/
def flushRun (words : List (List Char)) (run : List Char) : List Char :=
  if words.contains run then [] else run

/-- Worker for `subStopwords`; `run` accumulates the current maximal
word-character run in reverse order. -/
def subStopwordsAux (words : List (List Char)) (run : List Char) :
    List Char → List Char
  | [] => flushRun words run.reverse
  | c :: rest =>
    if isWordChar c then
      subStopwordsAux words (c :: run) rest
    else
      flushRun words run.reverse ++ c :: subStopwordsAux words [] rest

/-- Python `re.sub(r'\b(w1|w2|...)\b', '', name)` where every alternative
consists of word characters only.  A match must begin and end at a word
boundary, and since the alternatives contain only word characters, a match is
necessarily an entire maximal word-character run; so the substitution deletes
exactly the maximal word runs equal to one of the listed words. -/
def subStopwords (words : List (List Char)) (l : List Char) : List Char :=
  subStopwordsAux words [] l

/-- The corporate-suffix stop list of
`re.sub(r'\b(inc|llc|...)\b', '', name)` in `normalize_vendor_name`. -/
def corpSuffixes : List (List Char) :=
  (["inc", "llc", "ltd", "corp", "co", "company", "incorporated", "services",
    "solutions", "consulting", "financial", "advisory", "systems", "group",
    "holdings", "partners", "lp", "llp"].map String.data)

/-- The function-word stop list of
`re.sub(r'\b(the|of|...)\b', '', name)` in `normalize_vendor_name`. -/
def functionWords : List (List Char) :=
  (["the", "of", "and", "for", "in", "at", "on", "by", "with", "from"].map
    String.data)

/-- Worker for `collapseWhitespace`; `prevSpace` records whether the previous
character belonged to a whitespace run that has already emitted its single
space. -/
def collapseWSAux (prevSpace : Bool) : List Char → List Char
  | [] => []
  | c :: rest =>
    if isSpaceChar c then
      (if prevSpace then [] else [' ']) ++ collapseWSAux true rest
    else
      c :: collapseWSAux false rest

/-- Python `re.sub(r'\s+', ' ', name)`: replace each maximal whitespace run by
a single space. -/
def collapseWhitespace (l : List Char) : List Char := collapseWSAux false l

/-- Python `str.strip()`: drop leading and trailing whitespace. -/
def stripChars (l : List Char) : List Char :=
  ((l.dropWhile isSpaceChar).reverse.dropWhile isSpaceChar).reverse

/-- Python `name.split()[0]`: the first whitespace-delimited token (empty when
the string has no token). -/
def firstToken (l : List Char) : List Char :=
  (l.dropWhile isSpaceChar).takeWhile (fun c => !isSpaceChar c)

/-- Worker for `pyTitle`; `prevCased` records whether the previous character
was a cased (ASCII letter) character. -/
def pyTitleAux (prevCased : Bool) : List Char → List Char
  | [] => []
  | c :: rest =>
    if c.isAlpha then
      (if prevCased then asciiLower c else asciiUpper c) :: pyTitleAux true rest
    else
      c :: pyTitleAux false rest

/-- Python `str.title` (ASCII fragment): a letter is uppercased when the
previous character is not a letter, and lowercased otherwise; non-letters are
kept and reset the word state. -/
def pyTitle (l : List Char) : List Char := pyTitleAux false l

/-- Translation of `normalize_vendor_name`
(`src/pages/01_DOGE_Contract_Savings.py`, lines 21-31) on its string branch;
the `pd.isna`/non-`str` inputs of the Python function fall outside the
`String` domain and also return `None` there.  `name.split()[0]` is realized
by `firstToken`, and the trailing truthiness guard `if name` is equivalent to
the emptiness test on that token. -/
def normalize_vendor_name (s : String) : Option String :=
  if (stripChars s.data).isEmpty then none
  else
    let l1 := s.data.map asciiLower
    let l2 := removeParens l1
    let l3 := l2.filter (fun c => isWordChar c || isSpaceChar c)
    let l4 := subStopwords corpSuffixes l3
    let l5 := subStopwords functionWords l4
    let l6 := collapseWhitespace l5
    let l7 := stripChars l6
    let tok := firstToken l7
    if tok.isEmpty then none else some (String.mk (pyTitle tok))

/-- Python dict assignment `m[k] = v` on an insertion-ordered association
list: update the existing binding in place, or append a new one. -/
def insertMapping {β : Type} : List (String × β) → String → β → List (String × β)
  | [], k, v => [(k, v)]
  | (k', v') :: rest, k, v =>
    if k' = k then (k, v) :: rest else (k', v') :: insertMapping rest k v

/-- Python dict lookup `m[k]` on an insertion-ordered association list. -/
def lookupMapping {β : Type} : List (String × β) → String → Option β
  | [], _ => none
  | (k', v') :: rest, k => if k' = k then some v' else lookupMapping rest k

/-- Fuelled worker for `levInDel`; the fuel is the total length of the two
lists, which each recursive call strictly decreases. -/
def levInDelAux : Nat → List Char → List Char → Nat
  | _, [], b => b.length
  | _, a, [] => a.length
  | 0, a, b => a.length + b.length
  | fuel + 1, x :: a, y :: b =>
    if x = y then levInDelAux fuel a b
    else 1 + min (levInDelAux fuel (x :: a) b) (levInDelAux fuel a (y :: b))

/-- Edit distance with unit-cost insertions and deletions only (substitution
counts as two), the distance underlying the standard string similarity
ratio. -/
def levInDel (a b : List Char) : Nat := levInDelAux (a.length + b.length) a b

/-- Modelled from the spec (section 4.2): `fuzz.ratio` of the external
`fuzzywuzzy` library imported by the source, which is not part of the
repository.  It is the "edit-distance-based ratio scaled 0-100":
`round(100 * (lensum - dist) / lensum)` where `dist` is the
insert/delete edit distance, and 100 for two empty strings. -/
def fuzzScore (s t : String) : Nat :=
  let total := s.data.length + t.data.length
  if total = 0 then 100
  else (200 * (total - levInDel s.data t.data) + total) / (2 * total)

/-- The inner `for canon in canonical_names` loop of `build_vendor_clusters`
with its `break`: the first previously accepted canonical token whose
similarity score reaches the threshold, if any. -/
def find_match (score : String → String → Nat) (threshold : Nat)
    (cleaned : String) (canonical_names : List String) : Option String :=
  canonical_names.find? (fun canon => decide (threshold ≤ score cleaned canon))

/-- The loop state of `build_vendor_clusters`: the accepted canonical tokens
in creation order, and the raw-name-to-canonical-token dict. -/
structure ClusterState where
  canonical_names : List String
  name_mapping : List (String × String)
deriving DecidableEq, Repr

/-- One iteration of the outer `for vendor in vendors` loop of
`build_vendor_clusters` (`src/pages/01_DOGE Contract Savings.py`,
lines 40-55), parameterized by the similarity scorer.  A vendor whose
normalization is `none` is skipped (`if not cleaned: continue`; the
normalizer never returns an empty string). -/
def clusterStep (score : String → String → Nat) (threshold : Nat)
    (st : ClusterState) (vendor : String) : ClusterState :=
  match normalize_vendor_name vendor with
  | none => st
  | some cleaned =>
    match find_match score threshold cleaned st.canonical_names with
    | some canon =>
      { st with name_mapping := insertMapping st.name_mapping vendor canon }
    | none =>
      { canonical_names := st.canonical_names ++ [cleaned],
        name_mapping := insertMapping st.name_mapping vendor cleaned }

/-- The outer loop of `build_vendor_clusters` run from a given state. -/
def clusterRun (score : String → String → Nat) (threshold : Nat)
    (st : ClusterState) (vendors : List String) : ClusterState :=
  vendors.foldl (clusterStep score threshold) st

/-- Translation of `build_vendor_clusters(vendors, threshold)`
(`src/pages/01_DOGE Contract Savings.py`, lines 36-57), instantiated with the
`fuzz.ratio` scorer it calls; returns the final `name_mapping`. -/
def build_vendor_clusters (vendors : List String) (threshold : Nat) :
    List (String × String) :=
  (clusterRun fuzzScore threshold ⟨[], []⟩ vendors).name_mapping

/-- LETTER page height in points (`height` in the PDF sections). -/
def pageHeight : Int := 792

/-- The fixed bottom/side margin `margin = 50` of the PDF sections. -/
def pageMargin : Int := 50

/-- The per-line cursor advance `line_height = 16`. -/
def lineHeight : Int := 16

/-- The literal `100` of the row-loop overflow test `if cursor < 100`. -/
def breakThreshold : Int := 100

/-- The cursor position set by `reset_cursor()`: `height - margin`. -/
def topCursor : Int := pageHeight - pageMargin

/-- The mutable layout state of the PDF report sections: the vertical cursor,
the footer page counter, and (for specification purposes) the trace of
vertical positions at which table rows have been drawn. -/
structure LayoutState where
  cursor : Int
  pageNumber : Nat
  rowYs : List Int
deriving DecidableEq, Repr

/-- One table-row write: `draw_paragraph(f"- {row[...]}: $...")` on its single
line, or equivalently one `c.drawString(margin, cursor, ...)` followed by
`cursor -= line_height`.  The row is drawn at the current cursor position,
which is recorded in the trace. -/
def drawTableRow (st : LayoutState) : LayoutState :=
  { st with rowYs := st.rowYs ++ [st.cursor], cursor := st.cursor - lineHeight }

/-- The overflow handler `if cursor < 100: draw_footer(); c.showPage();
reset_cursor()`: stamp the footer (incrementing the page counter), finalize
the page, and reset the cursor to the top margin. -/
def breakIfPastMargin (st : LayoutState) : LayoutState :=
  if st.cursor < breakThreshold then
    { st with pageNumber := st.pageNumber + 1, cursor := topCursor }
  else st

/-- One iteration of the `agency_table`/`vendor_table` row loops of
`src/pages/01_DOGE Contract Savings.py` (lines 345-350 and 361-366): write
the row, then run the overflow check. -/
def agencyTableStep (st : LayoutState) : LayoutState :=
  breakIfPastMargin (drawTableRow st)

/-- The `agency_table` row loop run over `n` rows. -/
def agencyTableLoop (n : Nat) (st : LayoutState) : LayoutState :=
  (List.range n).foldl (fun s _ => agencyTableStep s) st

/-- The `top_agencies`/`top_vendors` row loops of
`src/pages/01_DOGE_Contract_Savings.py` (lines 354-356 and 366-368) run over
`n` rows: plain row writes with no overflow check.  The tables are
`head(20)` aggregates, so `n ≤ 20` in every build. -/
def top20TableLoop (n : Nat) (st : LayoutState) : LayoutState :=
  (List.range n).foldl (fun s _ => drawTableRow s) st

/-- The layout state at the start of a table section: `reset_cursor()`, then
`draw_title` (cursor -= 30), then `draw_divider` (cursor -= 10). -/
def sectionStart : LayoutState :=
  { cursor := topCursor - 30 - 10, pageNumber := 1, rowYs := [] }

/-- A cancellation record after ingestion: the coerced savings amount and
date are optional, mirroring NaN/NaT. -/
structure Record where
  agency : String
  vendor : Option String
  savings : Option Int
  deleted_date : Option Nat
deriving DecidableEq, Repr

/-- The error raised by a max/idxmax-style aggregate on an empty record set
(pandas `ValueError: attempt to get argmax of an empty sequence`). -/
inductive AggError where
  | emptyInput
deriving DecidableEq, Repr

/-- Worker for `idxmaxE`: the key of the first maximal value (pandas `idxmax`
keeps the first occurrence on ties). -/
def idxmaxGo (k : String) (v : Int) : List (String × Int) → String
  | [] => k
  | (k', v') :: rest => if v < v' then idxmaxGo k' v' rest else idxmaxGo k v rest

/-- Pandas `Series.idxmax` over a keyed series: the key achieving the maximum
value, failing with the distinguished empty-input error on an empty series. -/
def idxmaxE (l : List (String × Int)) : Except AggError String :=
  match l with
  | [] => .error .emptyInput
  | (k, v) :: rest => .ok (idxmaxGo k v rest)

/-- Fold step for `groupSumBy`: add `v` into the group of `k`, creating the
group at the end on first sight (pandas groupby-sum over string keys; group
order is irrelevant to the claims proved here). -/
def addToGroup : List (String × Int) → String → Int → List (String × Int)
  | [], k, v => [(k, v)]
  | (k', s) :: rest, k, v =>
    if k' = k then (k', s + v) :: rest else (k', s) :: addToGroup rest k v

/-- `df.groupby(key)["savings"].sum()`: group the records by a string key and
sum their savings; a record whose coerced savings is null is excluded from
the numeric aggregate (pandas sum skips NaN). -/
def groupSumBy (key : Record → String) (records : List Record) :
    List (String × Int) :=
  records.foldl
    (fun acc r =>
      match r.savings with
      | none => acc
      | some v => addToGroup acc (key r) v)
    []

/-- `df.groupby(key)["savings"].sum().idxmax()`, the max/idxmax-style metric
of the dashboard (`top_agency`, `top_vendor`;
`src/pages/01_DOGE_Contract_Savings.py`, lines 92-93). -/
def topKeyBySavings (key : Record → String) (records : List Record) :
    Except AggError String :=
  idxmaxE (groupSumBy key records)

/-- The raw `savings` field as delivered by the external API: a number, a
malformed non-numeric value, or a missing value. -/
inductive RawNum where
  | num (n : Int)
  | malformed
  | missing
deriving DecidableEq, Repr

/-- The raw date field as delivered by the external API: a parseable date
(abstracted to a day index), an unparseable value, or a missing value. -/
inductive RawDate where
  | date (d : Nat)
  | malformed
  | missing
deriving DecidableEq, Repr

/-- The parse error raised by `pd.to_datetime` with its default
`errors="raise"` on an unparseable date value. -/
inductive ParseError where
  | unparseable
deriving DecidableEq, Repr

/-- One raw record from the `/savings/contracts` or `/savings/grants`
endpoint, before coercion. -/
structure RawRecord where
  agency : String
  vendor : Option String
  savings : RawNum
  deleted_date : RawDate
deriving DecidableEq, Repr

/-- `pd.to_numeric(..., errors="coerce")`: a malformed or missing amount
becomes null (NaN), never an error. -/
def to_numeric_coerce : RawNum → Option Int
  | .num n => some n
  | .malformed => none
  | .missing => none

/-- `pd.to_datetime(...)` with the default `errors="raise"`, as called on
`df["deleted_date"]` in `get_contract_savings`
(`src/pages/01_DOGE_Contract_Savings.py`, line 64): an unparseable value
raises; a missing value becomes NaT without raising. -/
def to_datetime_strict : RawDate → Except ParseError (Option Nat)
  | .date d => .ok (some d)
  | .malformed => .error .unparseable
  | .missing => .ok none

/-- `pd.to_datetime(..., errors="coerce")`, as called on the date column in
`get_grant_savings` (`src/pages/02_DOGE Grants Savings.py`, line 53): an
unparseable or missing value becomes NaT (null). -/
def to_datetime_coerce : RawDate → Option Nat
  | .date d => some d
  | .malformed => none
  | .missing => none

/-- The field-coercion part of `get_contract_savings`
(`src/pages/01_DOGE_Contract_Savings.py`, lines 63-65): `savings` is coerced
with null on failure, but the date column is converted by strict
`pd.to_datetime`, so one unparseable date fails the whole ingestion. -/
def ingest_contracts : List RawRecord → Except ParseError (List Record)
  | [] => .ok []
  | r :: rest =>
    match to_datetime_strict r.deleted_date with
    | .error e => .error e
    | .ok d =>
      match ingest_contracts rest with
      | .error e => .error e
      | .ok rs =>
        .ok (⟨r.agency, r.vendor, to_numeric_coerce r.savings, d⟩ :: rs)

/-- The field-coercion part of `get_grant_savings`
(`src/pages/02_DOGE Grants Savings.py`, lines 51-54): both the amount and the
date are coerced with null on failure, every row is retained, and ingestion
is total. -/
def ingest_grants (rows : List RawRecord) : List Record :=
  rows.map fun r =>
    ⟨r.agency, r.vendor, to_numeric_coerce r.savings,
      to_datetime_coerce r.deleted_date⟩

/-- The chart identifiers of the `chart_titles` dict of the contracts report
(`src/pages/01_DOGE_Contract_Savings.py`, lines 373-378), in order. -/
def contract_chart_titles : List String :=
  ["top_agencies", "top_vendors", "monthly_savings", "weekday"]

/-- The chart identifiers of the `chart_titles` dict of the grants report
(`src/pages/02_DOGE Grants Savings.py`, lines 325-330), in order. -/
def grants_chart_titles : List String :=
  ["top_agencies", "avg_savings", "monthly_trend", "weekday"]

/-- The chart-page loop `for key, buffer in chart_images.items(): if key not
in chart_titles: continue; <emit one chart page>`
(`src/pages/01_DOGE_Contract_Savings.py`, lines 406-408;
`src/pages/02_DOGE Grants Savings.py`, lines 359-361): the identifiers of the
chart pages actually emitted, in iteration order.  Image buffers are opaque
and stand in as `Nat` tokens.  The loop is total: an identifier of the fixed
list with no supplied buffer is simply never visited, with no placeholder
page and no error. -/
def chartPageKeys (titles : List String) (images : List (String × Nat)) :
    List String :=
  (images.filter (fun kv => titles.contains kv.1)).map (fun kv => kv.1)

theorem lookupMapping_eq_none_not_mem {β : Type} (m : List (String × β))
    (k : String) (h : lookupMapping m k = none) : ∀ b, (k, b) ∉ m := by
  induction m with
  | nil => intro b hb; cases hb
  | cons kv rest ih =>
    obtain ⟨k', v'⟩ := kv
    by_cases hk : k' = k
    · simp [lookupMapping, hk] at h
    · simp only [lookupMapping, if_neg hk] at h
      intro b hb
      rcases List.mem_cons.mp hb with heq | hmem
      · cases heq; exact hk rfl
      · exact ih h b hmem

/-- Claim C2: `normalize` applied to "Acme Consulting Group, LLC" and to
"Acme Solutions Inc." both return the single capitalized token "Acme". -/
theorem normalize_acme_examples :
    normalize_vendor_name "Acme Consulting Group, LLC" = some "Acme" ∧
    normalize_vendor_name "Acme Solutions Inc." = some "Acme" :=
  ⟨by decide, by decide⟩

/-- Claim C5: a max/idxmax-style metric over an empty record set fails with
the distinguished empty-input error and never returns a default key. -/
theorem idxmax_empty_fails (key : Record → String) (records : List Record)
    (h : records = []) :
    topKeyBySavings key records = Except.error AggError.emptyInput ∧
    ∀ k, topKeyBySavings key records ≠ Except.ok k := by
  subst h
  refine ⟨rfl, fun k hk => ?_⟩
  exact Except.noConfusion hk

theorem idxmax_empty_fails_w :
    topKeyBySavings Record.agency [] = Except.error AggError.emptyInput :=
  (idxmax_empty_fails Record.agency [] rfl).1

/-- Claim C6 (divergence witness): the contracts ingestion converts the date
column with strict `pd.to_datetime`, so a row with an unparseable date makes
ingestion raise instead of coercing the field to null and retaining the row;
the grants ingestion of the same malformed fields coerces both to null and
retains the row, which is the behavior the claim describes. -/
theorem contracts_date_ingest_raises :
    ingest_contracts
        [⟨"HHS", some "Acme Inc.", RawNum.num 5, RawDate.malformed⟩] =
      Except.error ParseError.unparseable ∧
    ingest_grants
        [⟨"HHS", some "Acme Inc.", RawNum.malformed, RawDate.malformed⟩] =
      [⟨"HHS", some "Acme Inc.", none, none⟩] :=
  ⟨rfl, rfl⟩

/-- Claim C8: for an identifier of the fixed chart list with no supplied
buffer, the chart-page loop emits no page for it (and, being a total
function, surfaces no error), while identifiers present in the supplied image
map still get their pages. -/
theorem chart_pages_skip_missing (titles : List String)
    (images : List (String × Nat)) (key : String) (hkey : key ∈ titles) :
    (lookupMapping images key = none → key ∉ chartPageKeys titles images) ∧
    (∀ b, (key, b) ∈ images → key ∈ chartPageKeys titles images) := by
  constructor
  · intro hnone hmem
    obtain ⟨kv, hkv, hfst⟩ := List.mem_map.mp hmem
    have hkvmem : kv ∈ images := (List.mem_filter.mp hkv).1
    obtain ⟨k', b⟩ := kv
    have hk : k' = key := hfst
    subst hk
    exact lookupMapping_eq_none_not_mem images k' hnone b hkvmem
  · intro b hb
    refine List.mem_map.mpr ⟨(key, b), List.mem_filter.mpr ⟨hb, ?_⟩, rfl⟩
    simpa [List.contains] using hkey

theorem chart_pages_skip_missing_w :
    ("top_agencies" ∉
        chartPageKeys contract_chart_titles [("top_vendors", 7)]) ∧
      "top_vendors" ∈ chartPageKeys contract_chart_titles [("top_vendors", 7)] :=
  ⟨(chart_pages_skip_missing contract_chart_titles [("top_vendors", 7)]
      "top_agencies" (by decide)).1 (by decide),
   (chart_pages_skip_missing contract_chart_titles [("top_vendors", 7)]
      "top_vendors" (by decide)).2 7 (by decide)⟩

theorem agencyTableLoop_succ (n : Nat) (st : LayoutState) :
    agencyTableLoop (n + 1) st = agencyTableStep (agencyTableLoop n st) := by
  simp [agencyTableLoop, List.range_succ, List.foldl_append]

theorem agencyTableStep_inv (st : LayoutState)
    (hc : breakThreshold ≤ st.cursor)
    (hr : ∀ y ∈ st.rowYs, breakThreshold ≤ y) :
    breakThreshold ≤ (agencyTableStep st).cursor ∧
      ∀ y ∈ (agencyTableStep st).rowYs, breakThreshold ≤ y := by
  have hrows : ∀ y ∈ st.rowYs ++ [st.cursor], breakThreshold ≤ y := by
    intro y hy
    rcases List.mem_append.mp hy with h1 | h2
    · exact hr y h1
    · have := List.mem_singleton.mp h2
      subst this
      exact hc
  simp only [agencyTableStep, breakIfPastMargin, drawTableRow]
  by_cases h : st.cursor - lineHeight < breakThreshold
  · simp only [if_pos h]
    exact ⟨by decide, hrows⟩
  · simp only [if_neg h]
    exact ⟨le_of_not_lt h, hrows⟩

theorem agencyTableLoop_inv (n : Nat) (st : LayoutState)
    (hc : breakThreshold ≤ st.cursor)
    (hr : ∀ y ∈ st.rowYs, breakThreshold ≤ y) :
    breakThreshold ≤ (agencyTableLoop n st).cursor ∧
      ∀ y ∈ (agencyTableLoop n st).rowYs, breakThreshold ≤ y := by
  induction n with
  | zero => exact ⟨hc, hr⟩
  | succ n ih =>
    rw [agencyTableLoop_succ]
    exact agencyTableStep_inv _ ih.1 ih.2

theorem top20TableLoop_succ (n : Nat) (st : LayoutState) :
    top20TableLoop (n + 1) st = drawTableRow (top20TableLoop n st) := by
  simp [top20TableLoop, List.range_succ, List.foldl_append]

theorem top20TableLoop_cursor (n : Nat) (st : LayoutState) :
    (top20TableLoop n st).cursor = st.cursor - lineHeight * (n : Int) := by
  induction n with
  | zero => simp [top20TableLoop]
  | succ n ih =>
    rw [top20TableLoop_succ]
    simp only [drawTableRow, ih]
    push_cast
    ring

theorem top20TableLoop_rows (n : Nat) (st : LayoutState) :
    ∀ y ∈ (top20TableLoop n st).rowYs,
      y ∈ st.rowYs ∨ ∃ k : Nat, k < n ∧ y = st.cursor - lineHeight * (k : Int) := by
  induction n with
  | zero =>
    intro y hy
    exact Or.inl hy
  | succ n ih =>
    rw [top20TableLoop_succ]
    intro y hy
    simp only [drawTableRow] at hy
    rcases List.mem_append.mp hy with h1 | h2
    · rcases ih y h1 with h | ⟨k, hk, hke⟩
      · exact Or.inl h
      · exact Or.inr ⟨k, Nat.lt_succ_of_lt hk, hke⟩
    · have hc := List.mem_singleton.mp h2
      rw [top20TableLoop_cursor] at hc
      exact Or.inr ⟨n, Nat.lt_succ_self n, hc⟩

/-- Claim C3: in the overflow-checked table-row loops, every row is drawn at
a vertical position at or above the `cursor < 100` threshold and hence
strictly above the fixed bottom margin 50; whenever a row write leaves the
cursor past the threshold, the engine stamps the footer (incrementing the
page counter), finalizes the page, and resets the cursor to the top margin
before any further row is written; and the unchecked `head(20)` table loops
of the underscore dialect, bounded by their 20 rows, also never draw a row
below the bottom margin. -/
theorem table_row_pagination :
    (∀ (st : LayoutState) (n : Nat) (y : Int),
        breakThreshold ≤ st.cursor →
        (∀ y' ∈ st.rowYs, breakThreshold ≤ y') →
        y ∈ (agencyTableLoop n st).rowYs →
        pageMargin < y ∧ breakThreshold ≤ y) ∧
    (∀ st : LayoutState,
        (drawTableRow st).cursor < breakThreshold →
        agencyTableStep st =
          { cursor := topCursor, pageNumber := st.pageNumber + 1,
            rowYs := st.rowYs ++ [st.cursor] }) ∧
    (∀ (n : Nat) (y : Int), n ≤ 20 →
        y ∈ (top20TableLoop n sectionStart).rowYs →
        pageMargin < y ∧ breakThreshold ≤ y) := by
  refine ⟨?_, ?_, ?_⟩
  · intro st n y hc hr hy
    have h := (agencyTableLoop_inv n st hc hr).2 y hy
    exact ⟨lt_of_lt_of_le (by decide) h, h⟩
  · intro st h
    simp only [drawTableRow] at h
    simp [agencyTableStep, breakIfPastMargin, drawTableRow, if_pos h]
  · intro n y hn hy
    rcases top20TableLoop_rows n sectionStart y hy with h | ⟨k, hk, hke⟩
    · simp [sectionStart] at h
    · have hk19 : k ≤ 19 := by omega
      subst hke
      simp only [sectionStart, topCursor, pageHeight, pageMargin, lineHeight,
        breakThreshold]
      constructor <;> [skip; skip] <;> omega

theorem table_row_pagination_w :
    pageMargin < (702 : Int) ∧ breakThreshold ≤ (702 : Int) :=
  table_row_pagination.1 sectionStart 3 702 (by decide)
    (by intro y hy; simp [sectionStart] at hy) (by decide)

theorem lookupMapping_insert_self {β : Type} (m : List (String × β))
    (k : String) (v : β) :
    lookupMapping (insertMapping m k v) k = some v := by
  induction m with
  | nil => simp [insertMapping, lookupMapping]
  | cons kv rest ih =>
    obtain ⟨k', v'⟩ := kv
    by_cases h : k' = k
    · simp [insertMapping, lookupMapping, h]
    · simp [insertMapping, lookupMapping, h, ih]

theorem lookupMapping_insert_other {β : Type} (m : List (String × β))
    (k k' : String) (v : β) (h : k' ≠ k) :
    lookupMapping (insertMapping m k v) k' = lookupMapping m k' := by
  induction m with
  | nil =>
    have hk : ¬ k = k' := fun e => h e.symm
    simp [insertMapping, lookupMapping, hk]
  | cons kv rest ih =>
    obtain ⟨a, b⟩ := kv
    by_cases ha : a = k
    · subst ha
      have hak : ¬ a = k' := fun e => h (e.symm)
      simp [insertMapping, lookupMapping, hak]
    · simp [insertMapping, lookupMapping, ha, ih]

theorem find?_eq_of_least {α : Type} (p : α → Bool) (l : List α) (i : Nat)
    (hi : i < l.length) (hp : p (l.get ⟨i, hi⟩) = true)
    (hmin : ∀ j (hj : j < i), p (l.get ⟨j, Nat.lt_trans hj hi⟩) = false) :
    l.find? p = some (l.get ⟨i, hi⟩) := by
  induction l generalizing i with
  | nil => cases hi
  | cons a rest ih =>
    cases i with
    | zero =>
      exact List.find?_cons_of_pos rest hp
    | succ i =>
      have ha : p a = false := hmin 0 (Nat.succ_pos i)
      rw [List.find?_cons_of_neg rest (by simp [ha])]
      exact ih i (Nat.lt_of_succ_lt_succ hi) hp
        (fun j hj => hmin (j + 1) (Nat.succ_lt_succ hj))

/-- Claim C1: `build_vendor_clusters` processes the vendors in the order
given (its run over `vendors ++ [v]` is the step on `v` after the run over
`vendors`); a vendor whose normalization is `none` leaves the state
untouched; a vendor whose normalized token scores at least the threshold
against some previously accepted canonical token, the earliest such token in
creation order being at index `i`, is mapped to that token with no new
canonical identity created; and a vendor whose token beats no accepted
canonical token appends the token as a new canonical identity and is mapped
to it. -/
theorem cluster_first_match_spec (score : String → String → Nat) (thr : Nat) :
    (∀ (st : ClusterState) (vendors : List String) (v : String),
        clusterRun score thr st (vendors ++ [v]) =
          clusterStep score thr (clusterRun score thr st vendors) v) ∧
    (∀ (st : ClusterState) (v : String),
        normalize_vendor_name v = none → clusterStep score thr st v = st) ∧
    (∀ (st : ClusterState) (v cleaned : String) (i : Nat)
        (hi : i < st.canonical_names.length),
        normalize_vendor_name v = some cleaned →
        thr ≤ score cleaned (st.canonical_names.get ⟨i, hi⟩) →
        (∀ j (hj : j < i),
            score cleaned (st.canonical_names.get ⟨j, Nat.lt_trans hj hi⟩) < thr) →
        (clusterStep score thr st v).canonical_names = st.canonical_names ∧
          lookupMapping (clusterStep score thr st v).name_mapping v =
            some (st.canonical_names.get ⟨i, hi⟩)) ∧
    (∀ (st : ClusterState) (v cleaned : String),
        normalize_vendor_name v = some cleaned →
        (∀ c ∈ st.canonical_names, score cleaned c < thr) →
        (clusterStep score thr st v).canonical_names =
            st.canonical_names ++ [cleaned] ∧
          lookupMapping (clusterStep score thr st v).name_mapping v =
            some cleaned) := by
  refine ⟨?_, ?_, ?_, ?_⟩
  · intro st vendors v
    simp [clusterRun, List.foldl_append]
  · intro st v h
    simp [clusterStep, h]
  · intro st v cleaned i hi hnorm hscore hmin
    have hfind : find_match score thr cleaned st.canonical_names =
        some (st.canonical_names.get ⟨i, hi⟩) := by
      unfold find_match
      refine find?_eq_of_least _ _ i hi (by simpa using hscore) ?_
      intro j hj
      simp only [decide_eq_false_iff_not]
      exact Nat.not_le.mpr (hmin j hj)
    simp [clusterStep, hnorm, hfind, lookupMapping_insert_self]
  · intro st v cleaned hnorm hmax
    have hfind : find_match score thr cleaned st.canonical_names = none := by
      unfold find_match
      refine List.find?_eq_none.mpr ?_
      intro c hc
      simp only [decide_eq_true_eq]
      exact Nat.not_le.mpr (hmax c hc)
    simp [clusterStep, hnorm, hfind, lookupMapping_insert_self]

theorem cluster_first_match_spec_w :
    (clusterStep fuzzScore 90 ⟨["Acme"], []⟩ "Acme Co").canonical_names =
        ["Acme"] ∧
      lookupMapping
          (clusterStep fuzzScore 90 ⟨["Acme"], []⟩ "Acme Co").name_mapping
          "Acme Co" = some "Acme" :=
  (cluster_first_match_spec fuzzScore 90).2.2.1 ⟨["Acme"], []⟩ "Acme Co" "Acme"
    0 (by decide) (by decide) (by decide)
    (fun j hj => absurd hj (Nat.not_lt_zero j))

theorem levInDelAux_self (l : List Char) (fuel : Nat) (h : l.length ≤ fuel) :
    levInDelAux fuel l l = 0 := by
  induction l generalizing fuel with
  | nil => cases fuel <;> rfl
  | cons x rest ih =>
    cases fuel with
    | zero => exact absurd h (by simp)
    | succ fuel =>
      show levInDelAux (fuel + 1) (x :: rest) (x :: rest) = 0
      simp only [levInDelAux, if_pos rfl]
      exact ih fuel (Nat.le_of_succ_le_succ h)

theorem levInDel_self (l : List Char) : levInDel l l = 0 :=
  levInDelAux_self l (l.length + l.length) (Nat.le_add_right _ _)

theorem fuzzScore_self (s : String) : fuzzScore s s = 100 := by
  show (if s.data.length + s.data.length = 0 then 100
      else (200 * (s.data.length + s.data.length - levInDel s.data s.data) +
          (s.data.length + s.data.length)) /
        (2 * (s.data.length + s.data.length))) = 100
  by_cases h : s.data.length + s.data.length = 0
  · rw [if_pos h]
  · rw [if_neg h, levInDel_self, Nat.sub_zero]
    have hT : 0 < s.data.length + s.data.length := Nat.pos_of_ne_zero h
    rw [show 200 * (s.data.length + s.data.length) +
          (s.data.length + s.data.length) =
        2 * (s.data.length + s.data.length) * 100 +
          (s.data.length + s.data.length) by ring]
    rw [Nat.mul_add_div (by omega)]
    rw [Nat.div_eq_of_lt (by omega)]

theorem clusterStep_canons_extend (score : String → String → Nat) (thr : Nat)
    (st : ClusterState) (v : String) :
    ∃ ext, (clusterStep score thr st v).canonical_names =
      st.canonical_names ++ ext := by
  cases hnorm : normalize_vendor_name v with
  | none => exact ⟨[], by simp [clusterStep, hnorm]⟩
  | some cleaned =>
    cases hf : find_match score thr cleaned st.canonical_names with
    | none => exact ⟨[cleaned], by simp [clusterStep, hnorm, hf]⟩
    | some canon => exact ⟨[], by simp [clusterStep, hnorm, hf]⟩

theorem find_match_append (score : String → String → Nat) (thr : Nat)
    (t c : String) (l ext : List String)
    (h : find_match score thr t l = some c) :
    find_match score thr t (l ++ ext) = some c := by
  unfold find_match at h ⊢
  rw [List.find?_append, h]
  rfl

theorem clusterStep_lookup_preserved (score : String → String → Nat)
    (thr : Nat) (st : ClusterState) (v v' c : String)
    (h : lookupMapping st.name_mapping v' = some c) :
    ∃ c', lookupMapping (clusterStep score thr st v).name_mapping v' = some c' := by
  cases hnorm : normalize_vendor_name v with
  | none => exact ⟨c, by simpa [clusterStep, hnorm] using h⟩
  | some cleaned =>
    by_cases hv : v' = v
    · subst hv
      cases hf : find_match score thr cleaned st.canonical_names with
      | none =>
        exact ⟨cleaned, by simp [clusterStep, hnorm, hf, lookupMapping_insert_self]⟩
      | some canon =>
        exact ⟨canon, by simp [clusterStep, hnorm, hf, lookupMapping_insert_self]⟩
    · cases hf : find_match score thr cleaned st.canonical_names with
      | none =>
        exact ⟨c, by simpa [clusterStep, hnorm, hf,
          lookupMapping_insert_other _ _ _ _ hv] using h⟩
      | some canon =>
        exact ⟨c, by simpa [clusterStep, hnorm, hf,
          lookupMapping_insert_other _ _ _ _ hv] using h⟩

theorem clusterRun_lookup_preserved (score : String → String → Nat)
    (thr : Nat) (vendors : List String) (st : ClusterState) (v c : String)
    (h : lookupMapping st.name_mapping v = some c) :
    ∃ c', lookupMapping (clusterRun score thr st vendors).name_mapping v =
      some c' := by
  induction vendors generalizing st c with
  | nil => exact ⟨c, h⟩
  | cons w rest ih =>
    obtain ⟨c', hc'⟩ := clusterStep_lookup_preserved score thr st w v c h
    exact ih (clusterStep score thr st w) c' hc'

theorem clusterStep_lookup_self (score : String → String → Nat) (thr : Nat)
    (st : ClusterState) (v t : String) (h : normalize_vendor_name v = some t) :
    ∃ c, lookupMapping (clusterStep score thr st v).name_mapping v = some c := by
  cases hf : find_match score thr t st.canonical_names with
  | none => exact ⟨t, by simp [clusterStep, h, hf, lookupMapping_insert_self]⟩
  | some canon =>
    exact ⟨canon, by simp [clusterStep, h, hf, lookupMapping_insert_self]⟩

theorem clusterRun_total (score : String → String → Nat) (thr : Nat)
    (vendors : List String) (st : ClusterState) (v t : String)
    (hv : v ∈ vendors) (h : normalize_vendor_name v = some t) :
    ∃ c, lookupMapping (clusterRun score thr st vendors).name_mapping v =
      some c := by
  induction vendors generalizing st with
  | nil => exact absurd hv (List.not_mem_nil v)
  | cons w rest ih =>
    rcases List.mem_cons.mp hv with hw | hmem
    · subst hw
      obtain ⟨c, hc⟩ := clusterStep_lookup_self score thr st v t h
      exact clusterRun_lookup_preserved score thr rest _ v c hc
    · exact ih (clusterStep score thr st w) hmem

theorem clusterStep_goodstate (score : String → String → Nat) (thr : Nat)
    (hrefl : ∀ t : String, thr ≤ score t t) (st : ClusterState) (v : String)
    (hst : ∀ v' c, lookupMapping st.name_mapping v' = some c →
      ∃ t, normalize_vendor_name v' = some t ∧
        find_match score thr t st.canonical_names = some c) :
    ∀ v' c, lookupMapping (clusterStep score thr st v).name_mapping v' = some c →
      ∃ t, normalize_vendor_name v' = some t ∧
        find_match score thr t (clusterStep score thr st v).canonical_names =
          some c := by
  intro v' c hc
  cases hnorm : normalize_vendor_name v with
  | none =>
    simp only [clusterStep, hnorm] at hc ⊢
    exact hst v' c hc
  | some cleaned =>
    cases hf : find_match score thr cleaned st.canonical_names with
    | some canon =>
      simp only [clusterStep, hnorm, hf] at hc ⊢
      by_cases hv : v' = v
      · subst hv
        rw [lookupMapping_insert_self] at hc
        cases hc
        exact ⟨cleaned, hnorm, hf⟩
      · rw [lookupMapping_insert_other _ _ _ _ hv] at hc
        exact hst v' c hc
    | none =>
      simp only [clusterStep, hnorm, hf] at hc ⊢
      by_cases hv : v' = v
      · subst hv
        rw [lookupMapping_insert_self] at hc
        have hcc : cleaned = c := Option.some.inj hc
        refine ⟨cleaned, hnorm, ?_⟩
        unfold find_match at hf ⊢
        rw [List.find?_append, hf, ← hcc]
        have hone : List.find?
            (fun canon => decide (thr ≤ score cleaned canon)) [cleaned] =
            some cleaned :=
          List.find?_cons_of_pos _ (by simp [hrefl cleaned])
        rw [hone]
        rfl
      · rw [lookupMapping_insert_other _ _ _ _ hv] at hc
        obtain ⟨t, ht, hfm⟩ := hst v' c hc
        exact ⟨t, ht, find_match_append score thr t c _ _ hfm⟩

theorem clusterRun_goodstate (score : String → String → Nat) (thr : Nat)
    (hrefl : ∀ t : String, thr ≤ score t t) (vendors : List String)
    (st : ClusterState)
    (hst : ∀ v' c, lookupMapping st.name_mapping v' = some c →
      ∃ t, normalize_vendor_name v' = some t ∧
        find_match score thr t st.canonical_names = some c) :
    ∀ v' c,
      lookupMapping (clusterRun score thr st vendors).name_mapping v' = some c →
      ∃ t, normalize_vendor_name v' = some t ∧
        find_match score thr t (clusterRun score thr st vendors).canonical_names =
          some c := by
  induction vendors generalizing st with
  | nil => exact hst
  | cons w rest ih =>
    exact ih (clusterStep score thr st w)
      (clusterStep_goodstate score thr hrefl st w hst)

/-- Claim C4 counterexample: the non-empty raw vendor string "LLC"
normalizes to `none`, so `build_vendor_clusters` leaves it out of the
mapping entirely — the raw-name-to-canonical mapping is not total on
non-empty input strings. -/
theorem cluster_total_cex :
    ("LLC" : String) ≠ "" ∧ normalize_vendor_name "LLC" = none ∧
      lookupMapping (build_vendor_clusters ["LLC"] 90) "LLC" = none :=
  ⟨by decide, by decide, by decide⟩

/-- Claim C4 as amended: every raw vendor string whose normalization yields
a token is mapped by the clustering run to exactly one canonical identity
(the mapping lookup, a function, returns a value); raw names normalizing to
`none` are excluded from the mapping. -/
theorem cluster_total_on_normalized (vendors : List String) (thr : Nat)
    (v t : String) (hv : v ∈ vendors)
    (hn : normalize_vendor_name v = some t) :
    ∃ c, lookupMapping (build_vendor_clusters vendors thr) v = some c :=
  clusterRun_total fuzzScore thr vendors ⟨[], []⟩ v t hv hn

theorem cluster_total_on_normalized_w :
    (lookupMapping (build_vendor_clusters ["Acme Inc."] 90)
        "Acme Inc.").isSome = true := by
  obtain ⟨c, hc⟩ := cluster_total_on_normalized ["Acme Inc."] 90 "Acme Inc."
    "Acme" (by decide) (by decide)
  rw [hc]
  rfl

/-- Claim C10: with any threshold at most 100, two raw vendor names whose
normalizations are equal (and not `none`) are always mapped to the same
canonical identity, because an exact token match scores 100 and the list of
canonical tokens only ever grows at the end. -/
theorem cluster_equal_tokens_same_canon (vendors : List String) (thr : Nat)
    (hthr : thr ≤ 100) (v1 v2 t : String) (h1 : v1 ∈ vendors)
    (h2 : v2 ∈ vendors) (hn1 : normalize_vendor_name v1 = some t)
    (hn2 : normalize_vendor_name v2 = some t) :
    ∃ c, lookupMapping (build_vendor_clusters vendors thr) v1 = some c ∧
      lookupMapping (build_vendor_clusters vendors thr) v2 = some c := by
  have hrefl : ∀ s : String, thr ≤ fuzzScore s s := fun s => by
    rw [fuzzScore_self]
    exact hthr
  obtain ⟨c1, hc1⟩ := clusterRun_total fuzzScore thr vendors ⟨[], []⟩ v1 t h1 hn1
  obtain ⟨c2, hc2⟩ := clusterRun_total fuzzScore thr vendors ⟨[], []⟩ v2 t h2 hn2
  have hgood := clusterRun_goodstate fuzzScore thr hrefl vendors ⟨[], []⟩
    (fun v' c hc => by exact absurd hc (by simp [lookupMapping]))
  obtain ⟨t1, ht1, hf1⟩ := hgood v1 c1 hc1
  obtain ⟨t2, ht2, hf2⟩ := hgood v2 c2 hc2
  rw [hn1] at ht1
  rw [hn2] at ht2
  cases ht1
  cases ht2
  rw [hf1] at hf2
  cases hf2
  exact ⟨c1, hc1, hc2⟩

theorem cluster_equal_tokens_same_canon_w :
    lookupMapping (build_vendor_clusters ["Acme Inc.", "Acme LLC"] 90)
        "Acme Inc." =
      lookupMapping (build_vendor_clusters ["Acme Inc.", "Acme LLC"] 90)
        "Acme LLC" ∧
      (lookupMapping (build_vendor_clusters ["Acme Inc.", "Acme LLC"] 90)
          "Acme Inc.").isSome = true := by
  obtain ⟨c, hc1, hc2⟩ := cluster_equal_tokens_same_canon
    ["Acme Inc.", "Acme LLC"] 90 (by decide) "Acme Inc." "Acme LLC" "Acme"
    (by decide) (by decide) (by decide) (by decide)
  rw [hc1, hc2]
  exact ⟨rfl, rfl⟩

theorem isWordChar_asciiLower (c : Char) :
    isWordChar (asciiLower c) = isWordChar c := by
  unfold asciiLower
  split <;> rfl

theorem isWordChar_asciiUpper (c : Char) :
    isWordChar (asciiUpper c) = isWordChar c := by
  unfold asciiUpper
  split <;> rfl

theorem isSpaceChar_not_word (c : Char) (h : isSpaceChar c = true) :
    isWordChar c = false := by
  simp only [isSpaceChar, Bool.or_eq_true, decide_eq_true_eq] at h
  rcases h with ((((h | h) | h) | h) | h) | h <;> subst h <;> decide

theorem isWordChar_not_space (c : Char) (h : isWordChar c = true) :
    isSpaceChar c = false := by
  cases hs : isSpaceChar c with
  | false => rfl
  | true => rw [isSpaceChar_not_word c hs] at h; cases h

theorem splitAtClose_subset (l l' : List Char) (h : splitAtClose l = some l') :
    ∀ c ∈ l', c ∈ l := by
  induction l generalizing l' with
  | nil => cases h
  | cons a rest ih =>
    by_cases ha : a = ')'
    · rw [splitAtClose, if_pos ha] at h
      cases h
      exact fun c hc => List.mem_cons_of_mem a hc
    · by_cases hn : a = '\n'
      · rw [splitAtClose, if_neg ha, if_pos hn] at h
        cases h
      · rw [splitAtClose, if_neg ha, if_neg hn] at h
        exact fun c hc => List.mem_cons_of_mem a (ih l' h c hc)

theorem removeParensAux_subset (fuel : Nat) (l : List Char) :
    ∀ c ∈ removeParensAux fuel l, c ∈ l := by
  induction fuel generalizing l with
  | zero => exact fun c hc => hc
  | succ fuel ih =>
    cases l with
    | nil => exact fun c hc => absurd hc (List.not_mem_nil c)
    | cons a rest =>
      by_cases ha : a = '('
      · cases hs : splitAtClose rest with
        | some rest' =>
          rw [removeParensAux, if_pos ha, hs]
          exact fun c hc =>
            List.mem_cons_of_mem a (splitAtClose_subset rest rest' hs c (ih rest' c hc))
        | none =>
          rw [removeParensAux, if_pos ha, hs]
          intro c hc
          rcases List.mem_cons.mp hc with hca | hcr
          · exact hca ▸ List.mem_cons_self c rest
          · exact List.mem_cons_of_mem a (ih rest c hcr)
      · rw [removeParensAux, if_neg ha]
        intro c hc
        rcases List.mem_cons.mp hc with hca | hcr
        · exact hca ▸ List.mem_cons_self c rest
        · exact List.mem_cons_of_mem a (ih rest c hcr)

theorem flushRun_subset (words : List (List Char)) (run : List Char) :
    ∀ c ∈ flushRun words run, c ∈ run := by
  unfold flushRun
  split
  · exact fun c hc => absurd hc (List.not_mem_nil c)
  · exact fun c hc => hc

theorem subStopwordsAux_subset (words : List (List Char)) (l run : List Char) :
    ∀ c ∈ subStopwordsAux words run l, c ∈ run ∨ c ∈ l := by
  induction l generalizing run with
  | nil =>
    intro c hc
    exact Or.inl (List.mem_reverse.mp (flushRun_subset words run.reverse c hc))
  | cons a rest ih =>
    by_cases ha : isWordChar a
    · rw [subStopwordsAux, if_pos ha]
      intro c hc
      rcases ih (a :: run) c hc with hr | hl
      · rcases List.mem_cons.mp hr with hca | hcr
        · exact Or.inr (hca ▸ List.mem_cons_self c rest)
        · exact Or.inl hcr
      · exact Or.inr (List.mem_cons_of_mem a hl)
    · rw [subStopwordsAux, if_neg ha]
      intro c hc
      rcases List.mem_append.mp hc with hf | hcons
      · exact Or.inl (List.mem_reverse.mp (flushRun_subset words run.reverse c hf))
      · rcases List.mem_cons.mp hcons with hca | hcr
        · exact Or.inr (hca ▸ List.mem_cons_self c rest)
        · rcases ih [] c hcr with hnil | hl
          · exact absurd hnil (List.not_mem_nil c)
          · exact Or.inr (List.mem_cons_of_mem a hl)

theorem collapseWSAux_mem (l : List Char) (b : Bool) :
    ∀ c ∈ collapseWSAux b l, c = ' ' ∨ c ∈ l := by
  induction l generalizing b with
  | nil => exact fun c hc => absurd hc (List.not_mem_nil c)
  | cons a rest ih =>
    by_cases ha : isSpaceChar a
    · rw [collapseWSAux, if_pos ha]
      intro c hc
      rcases List.mem_append.mp hc with hsp | hrec
      · cases b with
        | true => exact absurd hsp (List.not_mem_nil c)
        | false => exact Or.inl (List.mem_singleton.mp hsp)
      · rcases ih true c hrec with h | h
        · exact Or.inl h
        · exact Or.inr (List.mem_cons_of_mem a h)
    · rw [collapseWSAux, if_neg ha]
      intro c hc
      rcases List.mem_cons.mp hc with hca | hcr
      · exact Or.inr (hca ▸ List.mem_cons_self c rest)
      · rcases ih false c hcr with h | h
        · exact Or.inl h
        · exact Or.inr (List.mem_cons_of_mem a h)

theorem stripChars_subset (l : List Char) : ∀ c ∈ stripChars l, c ∈ l := by
  intro c hc
  unfold stripChars at hc
  have h1 := List.mem_reverse.mp hc
  have h2 := (List.dropWhile_sublist isSpaceChar).subset h1
  have h3 := List.mem_reverse.mp h2
  exact (List.dropWhile_sublist isSpaceChar).subset h3

theorem pyTitleAux_mem (l : List Char) (b : Bool) :
    ∀ c ∈ pyTitleAux b l,
      ∃ d ∈ l, c = d ∨ c = asciiUpper d ∨ c = asciiLower d := by
  induction l generalizing b with
  | nil => exact fun c hc => absurd hc (List.not_mem_nil c)
  | cons a rest ih =>
    by_cases ha : a.isAlpha
    · rw [pyTitleAux, if_pos ha]
      intro c hc
      rcases List.mem_cons.mp hc with hca | hcr
      · cases b with
        | true => exact ⟨a, List.mem_cons_self a rest, Or.inr (Or.inr hca)⟩
        | false => exact ⟨a, List.mem_cons_self a rest, Or.inr (Or.inl hca)⟩
      · obtain ⟨d, hd, hde⟩ := ih true c hcr
        exact ⟨d, List.mem_cons_of_mem a hd, hde⟩
    · rw [pyTitleAux, if_neg ha]
      intro c hc
      rcases List.mem_cons.mp hc with hca | hcr
      · exact ⟨a, List.mem_cons_self a rest, Or.inl hca⟩
      · obtain ⟨d, hd, hde⟩ := ih false c hcr
        exact ⟨d, List.mem_cons_of_mem a hd, hde⟩

theorem pyTitleAux_length (l : List Char) (b : Bool) :
    (pyTitleAux b l).length = l.length := by
  induction l generalizing b with
  | nil => rfl
  | cons a rest ih =>
    by_cases ha : a.isAlpha
    · rw [pyTitleAux, if_pos ha]
      simp [ih true]
    · rw [pyTitleAux, if_neg ha]
      simp [ih false]

theorem firstToken_of_all_space (l : List Char)
    (h : ∀ c ∈ l, isSpaceChar c = true) : firstToken l = [] := by
  unfold firstToken
  rw [List.dropWhile_eq_nil_iff.mpr (fun x hx => h x hx)]
  rfl

theorem normalize_pipeline_all_space (s : String)
    (h : ∀ c ∈ s.data, isWordChar c = false) :
    ∀ c ∈ stripChars (collapseWhitespace (subStopwords functionWords
        (subStopwords corpSuffixes
          ((removeParens (s.data.map asciiLower)).filter
            (fun c => isWordChar c || isSpaceChar c))))),
      isSpaceChar c = true := by
  have h1 : ∀ c ∈ s.data.map asciiLower, isWordChar c = false := by
    intro c hc
    obtain ⟨d, hd, hde⟩ := List.mem_map.mp hc
    rw [← hde, isWordChar_asciiLower]
    exact h d hd
  have h2 : ∀ c ∈ removeParens (s.data.map asciiLower), isWordChar c = false :=
    fun c hc => h1 c (removeParensAux_subset _ _ c hc)
  have h3 : ∀ c ∈ (removeParens (s.data.map asciiLower)).filter
      (fun c => isWordChar c || isSpaceChar c), isSpaceChar c = true := by
    intro c hc
    have hm := List.mem_filter.mp hc
    have hw := h2 c hm.1
    have hor := hm.2
    rw [hw] at hor
    simpa using hor
  have h4 : ∀ c ∈ subStopwords corpSuffixes
      ((removeParens (s.data.map asciiLower)).filter
        (fun c => isWordChar c || isSpaceChar c)), isSpaceChar c = true := by
    intro c hc
    rcases subStopwordsAux_subset corpSuffixes _ [] c hc with hnil | hl
    · exact absurd hnil (List.not_mem_nil c)
    · exact h3 c hl
  have h5 : ∀ c ∈ subStopwords functionWords (subStopwords corpSuffixes
      ((removeParens (s.data.map asciiLower)).filter
        (fun c => isWordChar c || isSpaceChar c))), isSpaceChar c = true := by
    intro c hc
    rcases subStopwordsAux_subset functionWords _ [] c hc with hnil | hl
    · exact absurd hnil (List.not_mem_nil c)
    · exact h4 c hl
  have h6 : ∀ c ∈ collapseWhitespace (subStopwords functionWords
      (subStopwords corpSuffixes
        ((removeParens (s.data.map asciiLower)).filter
          (fun c => isWordChar c || isSpaceChar c)))), isSpaceChar c = true := by
    intro c hc
    rcases collapseWSAux_mem _ false c hc with hsp | hl
    · rw [hsp]; rfl
    · exact h5 c hl
  intro c hc
  exact h6 c (stripChars_subset _ c hc)

/-- Claim C7 counterexample: "_" is a non-empty string containing no letters
(it is pure punctuation — regex `\w` nevertheless matches the underscore),
yet `normalize` returns the token "_" rather than `none`. -/
theorem normalize_no_letters_cex :
    (("_" : String).data.all (fun c => !c.isAlpha)) = true ∧
      ("_" : String) ≠ "" ∧ normalize_vendor_name "_" = some "_" :=
  ⟨by decide, by decide, by decide⟩

/-- Claim C7 as amended: for all input strings containing no word characters
(no letters, digits or underscore — in particular all non-word punctuation
and whitespace), `normalize` returns none. -/
theorem normalize_no_wordchar_none (s : String)
    (h : ∀ c ∈ s.data, isWordChar c = false) :
    normalize_vendor_name s = none := by
  unfold normalize_vendor_name
  by_cases hstrip : (stripChars s.data).isEmpty
  · rw [if_pos hstrip]
  · rw [if_neg hstrip]
    have htok := firstToken_of_all_space _ (normalize_pipeline_all_space s h)
    simp [htok]

theorem normalize_no_wordchar_none_w : normalize_vendor_name "!!" = none :=
  normalize_no_wordchar_none "!!" (by decide)

theorem pyTitle_length (l : List Char) : (pyTitle l).length = l.length :=
  pyTitleAux_length l false

theorem normalize_token_chars (s : String) :
    ∀ c ∈ firstToken (stripChars (collapseWhitespace (subStopwords functionWords
        (subStopwords corpSuffixes
          ((removeParens (s.data.map asciiLower)).filter
            (fun c => isWordChar c || isSpaceChar c)))))),
      isWordChar c = true := by
  intro c hc
  have hspace : isSpaceChar c = false := by
    have := List.mem_takeWhile_imp hc
    simpa using this
  have hdrop := (List.takeWhile_sublist _).subset hc
  have h7 := (List.dropWhile_sublist _).subset hdrop
  have h6 := stripChars_subset _ c h7
  rcases collapseWSAux_mem _ false c h6 with hsp | h5
  · rw [hsp] at hspace
    exact absurd hspace (by decide)
  rcases subStopwordsAux_subset functionWords _ [] c h5 with hnil | h4
  · exact absurd hnil (List.not_mem_nil c)
  rcases subStopwordsAux_subset corpSuffixes _ [] c h4 with hnil | h3
  · exact absurd hnil (List.not_mem_nil c)
  have hor := (List.mem_filter.mp h3).2
  simpa [hspace] using hor

/-- Claim C9: whenever `normalize` returns a token, that token is a single
non-empty word: it contains only word characters (letters, digits,
underscore) and no whitespace, and is never the empty string. -/
theorem normalize_result_shape (s t : String)
    (h : normalize_vendor_name s = some t) :
    t ≠ "" ∧ ∀ c ∈ t.data, isWordChar c = true ∧ isSpaceChar c = false := by
  unfold normalize_vendor_name at h
  by_cases hstrip : (stripChars s.data).isEmpty
  · rw [if_pos hstrip] at h
    cases h
  · rw [if_neg hstrip] at h
    have h' : (if (firstToken (stripChars (collapseWhitespace
        (subStopwords functionWords (subStopwords corpSuffixes
          ((removeParens (s.data.map asciiLower)).filter
            (fun c => isWordChar c || isSpaceChar c))))))).isEmpty then none
        else some (String.mk (pyTitle (firstToken (stripChars
          (collapseWhitespace (subStopwords functionWords
            (subStopwords corpSuffixes
              ((removeParens (s.data.map asciiLower)).filter
                (fun c => isWordChar c || isSpaceChar c)))))))))) = some t := h
    have hchars := normalize_token_chars s
    generalize hg : firstToken (stripChars (collapseWhitespace
        (subStopwords functionWords (subStopwords corpSuffixes
          ((removeParens (s.data.map asciiLower)).filter
            (fun c => isWordChar c || isSpaceChar c)))))) = tok at h' hchars
    by_cases htok : tok.isEmpty
    · rw [if_pos htok] at h'
      cases h'
    · rw [if_neg htok] at h'
      have ht : String.mk (pyTitle tok) = t := Option.some.inj h'
      constructor
      · intro he
        rw [he] at ht
        have hnil : pyTitle tok = [] := congrArg String.data ht
        have hlen := congrArg List.length hnil
        rw [pyTitle_length] at hlen
        exact htok (List.isEmpty_iff.mpr (List.length_eq_zero.mp hlen))
      · intro c hc
        have hc' : c ∈ pyTitle tok := by
          rw [← ht] at hc
          exact hc
        obtain ⟨d, hd, hde⟩ := pyTitleAux_mem tok false c hc'
        have hdw : isWordChar d = true := hchars d hd
        have hcw : isWordChar c = true := by
          rcases hde with hh | hh | hh
          · rw [hh]; exact hdw
          · rw [hh, isWordChar_asciiUpper]; exact hdw
          · rw [hh, isWordChar_asciiLower]; exact hdw
        exact ⟨hcw, isWordChar_not_space c hcw⟩

theorem normalize_result_shape_w : ("Acme" : String) ≠ "" :=
  (normalize_result_shape "Acme Consulting Group, LLC" "Acme" (by decide)).1
